import Mathlib

/-!
Verification of the mapc-optimal column-generation solver.

This development shallowly embeds the core of the `mapc_optimal` package
(`solver.py`, `main.py`, `pricing.py`, and the `progressive` variant) in
Lean 4.  Real-valued quantities are modelled over `ℚ`; the dBm↔linear
conversions (`dbm_to_lin`, `lin_to_dbm`) are transcendental maps applied at
the boundary, so all embedded functions work directly on linear-scale
values (the conversion is treated as a pre-applied external map, and the
output dBm conversion is passed in as an abstract function).  The external
LP/MILP engine is out of scope of the specification; its solves are
modelled as oracle functions supplying variable values, while all
book-keeping around them (data generation, the column-generation loop,
column extraction, result construction) is embedded faithfully from the
source.
-/

namespace MapcOptimal

/-- A link is an ordered (AP index, STA index) pair.  The source uses tag
strings `AP_i` / `STA_j` built from the integer indices; the tagging map is
injective, so we work with the underlying indices. -/
abbrev Link := ℕ × ℕ

/-- Embeds `Solver._tx_possible` (solver.py line 176): a transmission is possible
iff `max_tx_power >= min_sinr[0] * path_loss * noise_floor`, all in linear
scale. -/
def tx_possible (maxP sinr0 pl noise : ℚ) : Bool :=
  decide (sinr0 * pl * noise ≤ maxP)

/-- The best-AP scan of `Solver._generate_data` (solver.py lines 199-206):
starting from `best_pl = inf`, `best_ap = None`, replace the incumbent
whenever `path_loss[a, s] < best_pl`.  The accumulator is `none` while no
AP has been seen. -/
def findBest (pl : ℕ → ℕ → ℚ) (s : ℕ) (aps : List ℕ) : Option (ℚ × ℕ) :=
  aps.foldl
    (fun acc a =>
      match acc with
      | none => some (pl a s, a)
      | some (bp, ba) => if pl a s < bp then some (pl a s, a) else some (bp, ba))
    none

/-- Link construction for `associations is None` (solver.py lines 198-209):
each station is attached to its lowest-path-loss AP, and the link is kept
only when `_tx_possible` holds for that best path loss. -/
def linksAuto (maxP sinr0 noise : ℚ) (pl : ℕ → ℕ → ℚ) (stas aps : List ℕ) : List Link :=
  stas.foldl
    (fun acc s =>
      match findBest pl s aps with
      | none => acc
      | some (bp, ba) => if tx_possible maxP sinr0 bp noise then acc ++ [(ba, s)] else acc)
    []

/-- Link construction for an explicit association map (solver.py lines
210-214): every associated (AP, STA) pair is kept iff `_tx_possible` holds
for its path loss. -/
def linksAssoc (maxP sinr0 noise : ℚ) (pl : ℕ → ℕ → ℚ) (assoc : List (ℕ × List ℕ)) : List Link :=
  assoc.foldl
    (fun acc p =>
      acc ++ (p.2.filter (fun s => tx_possible maxP sinr0 (pl p.1 s) noise)).map
        (fun s => (p.1, s)))
    []

/-- The link set produced by `Solver._generate_data`, dispatching on
whether an association map was supplied. -/
def generateLinks (maxP sinr0 noise : ℚ) (pl : ℕ → ℕ → ℚ) (stas aps : List ℕ)
    (assoc : Option (List (ℕ × List ℕ))) : List Link :=
  match assoc with
  | none => linksAuto maxP sinr0 noise pl stas aps
  | some m => linksAssoc maxP sinr0 noise pl m

/-- The per-(link, MCS) maximum-interference constant of
`Solver._generate_data` (solver.py lines 227-232, identically
progressive/solver.py lines 80-85): for a link `(a, s)` it sums, over the
other APs `i`, the full expression
`max_tx_power * (min_sinr[m] * pl[a,s] / pl[i,s]) + min_sinr[m] * pl[a,s] * noise`
— note that the noise summand sits inside the generator, so it occurs once
per interfering AP. -/
def max_interference (aps : List ℕ) (maxP : ℚ) (sinr : ℕ → ℚ) (noise : ℚ)
    (pl : ℕ → ℕ → ℚ) (a s m : ℕ) : ℚ :=
  ((aps.filter (fun i => i ≠ a)).map
    (fun i => maxP * (sinr m * pl a s / pl i s) + sinr m * pl a s * noise)).sum

/-- The maximum-interference constant as the specification words it:
`U[l, m] = Σ_{i ≠ a(l)} P_max · (σ_m · PL_l / PL_{i, s(l)}) + σ_m · PL_l · N₀`
with the noise-floor term added exactly once, outside the sum. -/
def specInterference (aps : List ℕ) (maxP : ℚ) (sinr : ℕ → ℚ) (noise : ℚ)
    (pl : ℕ → ℕ → ℚ) (a s m : ℕ) : ℚ :=
  ((aps.filter (fun i => i ≠ a)).map (fun i => maxP * (sinr m * pl a s / pl i s))).sum
    + sinr m * pl a s * noise

/-- Summing a constant offset over a list splits off `length • offset`. -/
lemma sum_map_add_const (xs : List ℕ) (f : ℕ → ℚ) (k : ℚ) :
    ((xs.map (fun i => f i + k)).sum) = (xs.map f).sum + xs.length * k := by
  induction xs with
  | nil => simp
  | cons x xs ih =>
      simp only [List.map_cons, List.sum_cons, List.length_cons, ih]
      push_cast
      ring

/-- Embeds `mcs_rate_diff` of `Pricing.__init__` (pricing.py line 21):
`Δr_0 = R_0` and `Δr_m = R_m − R_{m−1}`. -/
def rateDiff (R : ℕ → ℚ) (m : ℕ) : ℚ :=
  if m = 0 then R 0 else R m - R (m - 1)

/-- Embeds `Pricing._best_rate` (pricing.py lines 28-30): count the MCS indices
whose noise-only SINR test `max_tx_power >= min_sinr[m] * path_loss *
noise_floor` succeeds (the numpy boolean `.sum()` over the whole
`min_sinr` array of length `K`), then index `mcs_data_rates[count - 1]`;
when the count is zero the Python index `-1` selects the last entry. -/
def best_rate (K : ℕ) (sinr R : ℕ → ℚ) (maxP noise pl : ℚ) : ℚ :=
  let cnt := (List.range K).countP (fun m => decide (sinr m * pl * noise ≤ maxP))
  if cnt = 0 then R (K - 1) else R (cnt - 1)

/-- The number of MCS levels passing the noise-only test. -/
def mcsCount (K : ℕ) (sinr : ℕ → ℚ) (maxP noise pl : ℚ) : ℕ :=
  (List.range K).countP (fun m => decide (sinr m * pl * noise ≤ maxP))

lemma mcsCount_succ (K : ℕ) (sinr : ℕ → ℚ) (maxP noise pl : ℚ) :
    mcsCount (K + 1) sinr maxP noise pl =
      mcsCount K sinr maxP noise pl +
        (if sinr K * pl * noise ≤ maxP then 1 else 0) := by
  simp [mcsCount, List.range_succ, List.countP_append, List.countP_cons]

lemma mcsCount_le (K : ℕ) (sinr : ℕ → ℚ) (maxP noise pl : ℚ) :
    mcsCount K sinr maxP noise pl ≤ K := by
  induction K with
  | zero => simp [mcsCount]
  | succ n ih =>
      rw [mcsCount_succ]
      split <;> omega

lemma mcsCount_all (K : ℕ) (sinr : ℕ → ℚ) (maxP noise pl : ℚ)
    (h : ∀ m < K, sinr m * pl * noise ≤ maxP) :
    mcsCount K sinr maxP noise pl = K := by
  induction K with
  | zero => simp [mcsCount]
  | succ n ih =>
      rw [mcsCount_succ, if_pos (h n (Nat.lt_succ_self n)),
        ih (fun m hm => h m (Nat.lt_succ_of_lt hm))]

/-- When the pass predicate is downward closed in the MCS index (which
monotone `min_sinr` with non-negative `pl * noise` gives), an index passes
iff it is below the count. -/
lemma mcsCount_charact (K : ℕ) (sinr : ℕ → ℚ) (maxP noise pl : ℚ)
    (hdc : ∀ m m', m ≤ m' → sinr m' * pl * noise ≤ maxP → sinr m * pl * noise ≤ maxP) :
    ∀ m < K, (sinr m * pl * noise ≤ maxP ↔ m < mcsCount K sinr maxP noise pl) := by
  induction K with
  | zero => omega
  | succ n ih =>
      intro m hm
      rw [mcsCount_succ]
      by_cases hK : sinr n * pl * noise ≤ maxP
      · have hall : ∀ j < n, sinr j * pl * noise ≤ maxP :=
          fun j hj => hdc j n (Nat.le_of_lt hj) hK
        rw [mcsCount_all n sinr maxP noise pl hall, if_pos hK]
        constructor
        · intro _; omega
        · intro _
          rcases Nat.lt_succ_iff_lt_or_eq.mp hm with h | h
          · exact hall m h
          · exact h ▸ hK
      · rw [if_neg hK]
        rcases Nat.lt_succ_iff_lt_or_eq.mp hm with h | h
        · simpa using ih m h
        · subst h
          have := mcsCount_le m sinr maxP noise pl
          constructor
          · intro hc; exact absurd hc hK
          · omega

/-- The configuration pool as threaded through the column-generation
driver (`conf_num`, `confs`, and the per-configuration dictionaries
`conf_links`, `conf_link_rates`, `conf_total_rates`,
`conf_link_tx_power`).  Dictionaries are modelled as total functions; the
domain of every per-configuration dictionary is tracked by `confs`. -/
structure Config where
  confNum : ℕ
  confs : List ℕ
  confLinks : ℕ → List Link
  confLinkRates : ℕ → Link → ℚ
  confTotalRates : ℕ → ℚ
  confLinkTxPower : ℕ → Link → ℚ

/-- Embeds `graph.in_edges(s)`: the links of the association graph terminating at
station `s`, in graph order. -/
def in_edges (g : List Link) (s : ℕ) : List Link :=
  g.filter (fun l => l.2 = s)

/-- Embeds `Pricing.initial_configuration` (pricing.py lines 32-72): one
configuration per station, numbered from 1; configuration `i` holds the
first in-edge of the `i`-th station, its `_best_rate` link rate, the total
rate summed over its (single) link, and `max_tx_power` on it.  The Python
code raises `IndexError` when some station has no in-edge; that condition
is reflected by returning `none`. -/
def initial_configuration (K : ℕ) (sinr R : ℕ → ℚ) (maxP noise : ℚ)
    (stations : List ℕ) (lpl : Link → ℚ) (g : List Link) : Option Config :=
  if stations.all (fun s => !(in_edges g s).isEmpty) then
    let clinks : ℕ → List Link := fun c =>
      if 1 ≤ c ∧ c ≤ stations.length then
        [(in_edges g (stations.getD (c - 1) 0)).headD (0, 0)]
      else []
    let crates : ℕ → Link → ℚ := fun c l =>
      if l ∈ clinks c then best_rate K sinr R maxP noise (lpl l) else 0
    some { confNum := stations.length + 1
           confs := List.range' 1 stations.length
           confLinks := clinks
           confLinkRates := crates
           confTotalRates := fun c => ((clinks c).map (crates c)).sum
           confLinkTxPower := fun c l => if l ∈ clinks c then maxP else 0 }
  else none

/-- The function `best_rate` returns the data rate of the highest admissible MCS when
the MCS-0 test passes and the pass predicate is downward closed. -/
lemma best_rate_spec (K : ℕ) (sinr R : ℕ → ℚ) (maxP noise pl : ℚ)
    (hK : 0 < K)
    (hdc : ∀ m m', m ≤ m' → sinr m' * pl * noise ≤ maxP → sinr m * pl * noise ≤ maxP)
    (h0 : sinr 0 * pl * noise ≤ maxP) :
    ∃ k < K, sinr k * pl * noise ≤ maxP ∧
      (∀ m < K, k < m → ¬ sinr m * pl * noise ≤ maxP) ∧
      best_rate K sinr R maxP noise pl = R k := by
  have hch := mcsCount_charact K sinr maxP noise pl hdc
  have hc0 : 0 < mcsCount K sinr maxP noise pl := ((hch 0 hK).mp h0)
  have hcle := mcsCount_le K sinr maxP noise pl
  refine ⟨mcsCount K sinr maxP noise pl - 1, by omega, ?_, ?_, ?_⟩
  · exact (hch _ (by omega)).mpr (by omega)
  · intro m hm hgt hpass
    have := (hch m hm).mp hpass
    omega
  · have : mcsCount K sinr maxP noise pl ≠ 0 := by omega
    simp only [best_rate, mcsCount] at *
    rw [if_neg this]

/-- C5: for a non-empty admitted link set (every station owning exactly
one in-edge, each passing the MCS-0 noise-only test), the initial pool has
exactly one configuration per station, numbered from 1, each holding that
station's single link at `max_tx_power`, with link rate the data rate of
the highest MCS `m` satisfying `max_tx_power ≥ min_sinr[m] · PL · N₀`, and
total rate equal to that single link rate. -/
theorem C5_initial_configuration
    (K : ℕ) (sinr R : ℕ → ℚ) (maxP noise : ℚ)
    (stations : List ℕ) (lpl : Link → ℚ) (g : List Link)
    (hK : 0 < K)
    (hmono : ∀ m m', m ≤ m' → sinr m ≤ sinr m')
    (hone : ∀ s ∈ stations, (in_edges g s).length = 1)
    (hpl : ∀ s ∈ stations, ∀ l ∈ in_edges g s, 0 ≤ lpl l * noise)
    (hadm : ∀ s ∈ stations, ∀ l ∈ in_edges g s, sinr 0 * lpl l * noise ≤ maxP) :
    ∃ cfg, initial_configuration K sinr R maxP noise stations lpl g = some cfg ∧
      cfg.confNum = stations.length + 1 ∧
      cfg.confs = List.range' 1 stations.length ∧
      ∀ i, (hi : i < stations.length) →
        ∃ l, in_edges g (stations.get ⟨i, hi⟩) = [l] ∧
          cfg.confLinks (i + 1) = [l] ∧
          cfg.confLinkTxPower (i + 1) l = maxP ∧
          (∃ k < K, sinr k * lpl l * noise ≤ maxP ∧
            (∀ m < K, k < m → ¬ sinr m * lpl l * noise ≤ maxP) ∧
            cfg.confLinkRates (i + 1) l = R k) ∧
          cfg.confTotalRates (i + 1) = cfg.confLinkRates (i + 1) l := by
  have hguard : stations.all (fun s => !(in_edges g s).isEmpty) = true := by
    rw [List.all_eq_true]
    intro s hs
    obtain ⟨l, hl⟩ := List.length_eq_one.mp (hone s hs)
    simp [hl]
  rw [initial_configuration, if_pos hguard]
  refine ⟨_, rfl, rfl, rfl, ?_⟩
  intro i hi
  have hsmem : stations.get ⟨i, hi⟩ ∈ stations := stations.get_mem _ _
  obtain ⟨l, hl⟩ := List.length_eq_one.mp (hone _ hsmem)
  have hlmem : l ∈ in_edges g (stations.get ⟨i, hi⟩) := by rw [hl]; exact List.mem_singleton_self l
  have hcond : 1 ≤ i + 1 ∧ i + 1 ≤ stations.length := ⟨Nat.le_add_left 1 i, hi⟩
  have hgetD : stations.getD (i + 1 - 1) 0 = stations.get ⟨i, hi⟩ := by
    simpa using List.getD_eq_getElem stations 0 hi
  have hclink :
      (if 1 ≤ i + 1 ∧ i + 1 ≤ stations.length then
        [(in_edges g (stations.getD (i + 1 - 1) 0)).headD (0, 0)] else []) = [l] := by
    rw [if_pos hcond, hgetD, hl]
    rfl
  refine ⟨l, hl, ?_, ?_, ?_, ?_⟩
  · simpa using hclink
  · simp only [hclink]
    simp
  · have hdc : ∀ m m', m ≤ m' →
        sinr m' * lpl l * noise ≤ maxP → sinr m * lpl l * noise ≤ maxP := by
      intro m m' hmm' h
      have h1 : sinr m * (lpl l * noise) ≤ sinr m' * (lpl l * noise) :=
        mul_le_mul_of_nonneg_right (hmono m m' hmm') (hpl _ hsmem l hlmem)
      calc sinr m * lpl l * noise = sinr m * (lpl l * noise) := by ring
        _ ≤ sinr m' * (lpl l * noise) := h1
        _ = sinr m' * lpl l * noise := by ring
        _ ≤ maxP := h
    obtain ⟨k, hk, hkpass, hkmax, hbr⟩ :=
      best_rate_spec K sinr R maxP noise (lpl l) hK hdc (hadm _ hsmem l hlmem)
    refine ⟨k, hk, hkpass, hkmax, ?_⟩
    simp only [hclink]
    simp [hbr]
  · simp only [hclink]
    simp

/-- C4 counterexample: with three APs `[0, 1, 2]`, link `(0, 0)`, unit
path losses, `max_tx_power = 1`, `min_sinr ≡ 1` and `noise = 1`, the code
computes `(1 + 1) + (1 + 1) = 4` while the claimed formula (noise term
added exactly once) gives `2 + 1 = 3`. -/
theorem C4_noise_counterexample :
    max_interference [0, 1, 2] 1 (fun _ => 1) 1 (fun _ _ => 1) 0 0 0 = 4 ∧
      specInterference [0, 1, 2] 1 (fun _ => 1) 1 (fun _ _ => 1) 0 0 0 = 3 ∧
      max_interference [0, 1, 2] 1 (fun _ => 1) 1 (fun _ _ => 1) 0 0 0 ≠
        specInterference [0, 1, 2] 1 (fun _ => 1) 1 (fun _ _ => 1) 0 0 0 := by
  refine ⟨by norm_num [max_interference], by norm_num [specInterference],
    by norm_num [max_interference, specInterference]⟩

/-- C4 amended: the precomputed maximum-interference constant equals the
sum over interfering APs of the power terms plus the noise-floor term
`min_sinr[m] * PL_l * N0` added once per interfering AP (not once in
total). -/
theorem C4_amended_interference (aps : List ℕ) (maxP : ℚ) (sinr : ℕ → ℚ)
    (noise : ℚ) (pl : ℕ → ℕ → ℚ) (a s m : ℕ) :
    max_interference aps maxP sinr noise pl a s m =
      ((aps.filter (fun i => i ≠ a)).map
        (fun i => maxP * (sinr m * pl a s / pl i s))).sum +
        ((aps.filter (fun i => i ≠ a)).length : ℚ) * (sinr m * pl a s * noise) := by
  rw [max_interference, sum_map_add_const]

/-- The telescoping data-rate expression of the pricing problem
(pricing.py line 142): `Σ_{m ∈ mcs_values} mcs_rate_diff[m] * link_mcs[l, m]`. -/
def mcsSum (K : ℕ) (R : ℕ → ℚ) (v : ℕ → ℚ) : ℚ :=
  ((List.range K).map (fun m => rateDiff R m * v m)).sum

/-- Feasibility of the pricing MILP (pricing.py lines 89-142): variable
bounds and integrality from the variable declarations, then the
station/AP at-most-one constraints, power bounds, incremental MCS chain,
the four-inequality `q` linearisation, the SINR constraint and the
telescoping rate definition, each quantified exactly over the index sets
the source loops over. -/
def PricingFeasible (stations aps : List ℕ) (links : List Link) (K : ℕ)
    (sinr R : ℕ → ℚ) (maxP minP noise : ℚ) (plT : ℕ → ℕ → ℚ)
    (linkOn tx : Link → ℚ) (mcs : Link → ℕ → ℚ)
    (rate : Link → ℚ) (q : ℕ → Link → ℕ → ℚ) : Prop :=
  (∀ l ∈ links, linkOn l = 0 ∨ linkOn l = 1) ∧
  (∀ l ∈ links, ∀ m < K, mcs l m = 0 ∨ mcs l m = 1) ∧
  (∀ l ∈ links, 0 ≤ tx l) ∧
  (∀ l ∈ links, 0 ≤ rate l) ∧
  (∀ i ∈ aps, ∀ l ∈ links, ∀ m < K, 0 ≤ q i l m) ∧
  (∀ s ∈ stations, (((links.filter (fun l => l.2 = s)).map linkOn).sum) ≤ 1) ∧
  (∀ a ∈ aps, (((links.filter (fun l => l.1 = a)).map linkOn).sum) ≤ 1) ∧
  (∀ l ∈ links, tx l ≤ maxP * linkOn l) ∧
  (∀ l ∈ links, minP * linkOn l ≤ tx l) ∧
  (∀ l ∈ links, mcs l 0 ≤ linkOn l) ∧
  (∀ l ∈ links, ∀ m, 0 < m → m < K → mcs l m ≤ mcs l (m - 1)) ∧
  (∀ l ∈ links, ∀ m < K, ∀ i ∈ aps, q i l m ≤ maxP * mcs l m) ∧
  (∀ l ∈ links, ∀ m < K, ∀ i ∈ aps, q i l m ≤ tx l) ∧
  (∀ l ∈ links, ∀ m < K, ∀ i ∈ aps, tx l - maxP * (1 - mcs l m) ≤ q i l m) ∧
  (∀ l ∈ links, ∀ m < K,
    ((aps.filter (fun i => i ≠ l.1)).map
      (fun i => sinr m * plT l.1 l.2 / plT i l.2 * q i l m)).sum
      + sinr m * plT l.1 l.2 * noise * mcs l m ≤ q l.1 l m) ∧
  (∀ l ∈ links, rate l = mcsSum K R (mcs l))

/-- The per-MCS rate increments telescope: summing `mcs_rate_diff` over
`0..k` recovers `mcs_data_rates[k]`. -/
lemma rateDiff_telescope (R : ℕ → ℚ) (k : ℕ) :
    ((List.range (k + 1)).map (rateDiff R)).sum = R k := by
  induction k with
  | zero => simp [rateDiff, List.range_succ]
  | succ n ih =>
      rw [List.range_succ, List.map_append, List.sum_append, ih]
      simp [rateDiff]

/-- Summing the increments against a 1-on-a-prefix indicator yields the
rate of the prefix's top index. -/
lemma mcsSum_prefix (R v : ℕ → ℚ) (k K : ℕ) (hkK : k < K)
    (h1 : ∀ m ≤ k, v m = 1) (h0 : ∀ m, k < m → m < K → v m = 0) :
    mcsSum K R v = R k := by
  induction K with
  | zero => omega
  | succ n ih =>
      rcases Nat.lt_succ_iff_lt_or_eq.mp hkK with hlt | heq
      · rw [mcsSum, List.range_succ, List.map_append, List.sum_append]
        have hn : v n = 0 := h0 n hlt (Nat.lt_succ_self n)
        have := ih hlt (fun m hm hmn => h0 m hm (Nat.lt_succ_of_lt hmn))
        rw [mcsSum] at this
        simp [hn, this]
      · subst heq
        rw [mcsSum, ← rateDiff_telescope R k]
        congr 1
        apply List.map_congr_left
        intro m hm
        rw [h1 m (by simpa [Nat.lt_succ_iff] using hm), mul_one]

/-- C6: in every assignment satisfying the pricing constraints, the
incremental-MCS inequalities hold, the selected MCS indicators on a link
form a prefix, the link rate is the telescoping sum, a switched-off link
has rate 0, and the rate equals the data rate of the highest selected
MCS. -/
theorem C6_pricing_mcs_prefix_rate
    (stations aps : List ℕ) (links : List Link) (K : ℕ)
    (sinr R : ℕ → ℚ) (maxP minP noise : ℚ) (plT : ℕ → ℕ → ℚ)
    (linkOn tx : Link → ℚ) (mcs : Link → ℕ → ℚ)
    (rate : Link → ℚ) (q : ℕ → Link → ℕ → ℚ)
    (hf : PricingFeasible stations aps links K sinr R maxP minP noise plT
      linkOn tx mcs rate q) :
    ∀ l ∈ links,
      (mcs l 0 ≤ linkOn l) ∧
      (∀ m, 0 < m → m < K → mcs l m ≤ mcs l (m - 1)) ∧
      (∀ k < K, mcs l k = 1 → ∀ m ≤ k, mcs l m = 1) ∧
      rate l = mcsSum K R (mcs l) ∧
      (linkOn l = 0 → rate l = 0) ∧
      (∀ k < K, mcs l k = 1 → (∀ m < K, k < m → mcs l m = 0) → rate l = R k) := by
  obtain ⟨hon, hbin, -, -, -, -, -, -, -, hmcs0, hchain, -, -, -, -, hrate⟩ := hf
  intro l hl
  have hprefix : ∀ k, k < K → mcs l k = 1 → ∀ m, m ≤ k → mcs l m = 1 := by
    intro k
    induction k with
    | zero =>
        intro _ h1 m hm
        have : m = 0 := Nat.le_zero.mp hm
        rw [this]
        exact h1
    | succ n ih =>
        intro hk h1 m hm
        have hstep := hchain l hl (n + 1) (Nat.succ_pos n) hk
        rw [Nat.add_sub_cancel] at hstep
        have hn1 : mcs l n = 1 := by
          rcases hbin l hl n (by omega) with h0 | h1'
          · rw [h0, h1] at hstep; linarith
          · exact h1'
        rcases Nat.lt_succ_iff_lt_or_eq.mp (Nat.lt_succ_of_le hm) with hlt | heq
        · exact ih (by omega) hn1 m (by omega)
        · rw [heq]; exact h1
  have hzero : linkOn l = 0 → ∀ m, m < K → mcs l m = 0 := by
    intro h0 m
    induction m with
    | zero =>
        intro hmK
        have := hmcs0 l hl
        rw [h0] at this
        rcases hbin l hl 0 hmK with hz | ho
        · exact hz
        · rw [ho] at this; linarith
    | succ n ih =>
        intro hmK
        have hstep := hchain l hl (n + 1) (Nat.succ_pos n) hmK
        rw [Nat.add_sub_cancel, ih (by omega)] at hstep
        rcases hbin l hl (n + 1) hmK with hz | ho
        · exact hz
        · rw [ho] at hstep; linarith
  refine ⟨hmcs0 l hl, hchain l hl, hprefix, hrate l hl, ?_, ?_⟩
  · intro h0
    rw [hrate l hl, mcsSum]
    apply List.sum_eq_zero
    intro x hx
    obtain ⟨m, hm, hmx⟩ := List.mem_map.mp hx
    rw [← hmx, hzero h0 m (List.mem_range.mp hm), mul_zero]
  · intro k hk hk1 htop
    rw [hrate l hl]
    exact mcsSum_prefix R (mcs l) k K hk
      (fun m hm => hprefix k hk hk1 m hm) (fun m hm hmK => htop m hmK hm)

/-- Witness for C6: the theorem applied to a concrete feasible
assignment (one link, one MCS level, all variables zero). -/
theorem C6_pricing_witness : mcsSum 1 (fun _ => (8 : ℚ)) (fun _ => 0) = 0 := by
  have h := C6_pricing_mcs_prefix_rate [0] [0] [((0, 0) : Link)] 1 (fun _ => 1) (fun _ => 8)
    2 1 1 (fun _ _ => 1) (fun _ => 0) (fun _ => 0) (fun _ _ => 0) (fun _ => 0)
    (fun _ _ _ => 0) (by simp [PricingFeasible, mcsSum, rateDiff])
  exact ((h (0, 0) (List.mem_singleton_self _)).2.2.2.1).symm

/-- The per-station throughput expression of the main LP (main.py lines
71-73): `Σ_{c ∈ confs} Σ_{l ∈ conf_links[c], link_node_b[l] = s}
conf_link_rates[c][l] · conf_weight[c]`. -/
def nodeThroughput (confs : List ℕ) (confLinks : ℕ → List Link)
    (rates : ℕ → Link → ℚ) (w : ℕ → ℚ) (s : ℕ) : ℚ :=
  (confs.map (fun c =>
    (((confLinks c).filter (fun l => l.2 = s)).map (fun l => rates c l * w c)).sum)).sum

/-- Feasibility of the main LP (main.py lines 60-80): the `conf_weight`
bounds `[0, 1]`, the `node_throughput`/`min_throughput` lower bounds 0,
normalisation `Σ_c w[c] = 1`, the throughput definition, the worst-case
constraint for every station, and (in `opt_sum` mode) the minimum
throughput floor. -/
def MainFeasible (stations confs : List ℕ) (confLinks : ℕ → List Link)
    (rates : ℕ → Link → ℚ) (minThr : ℚ) (optSum : Bool)
    (w : ℕ → ℚ) (thr : ℕ → ℚ) (mu : ℚ) : Prop :=
  (∀ c ∈ confs, 0 ≤ w c) ∧
  (∀ c ∈ confs, w c ≤ 1) ∧
  (∀ s ∈ stations, 0 ≤ thr s) ∧
  0 ≤ mu ∧
  (confs.map w).sum = 1 ∧
  (∀ s ∈ stations, thr s = nodeThroughput confs confLinks rates w s) ∧
  (∀ s ∈ stations, mu ≤ thr s) ∧
  (optSum = true → minThr ≤ mu)

/-- Feasibility of the progressive main LP (progressive/main.py lines
21-43): variable bounds, normalisation `Σ_c w[c] = 1 − ℓ`, the throughput
definition, the frozen-rate (`σ`) and reference (`ρ`) constraints with the
slack `y`, and the worst-case constraint over the selected stations. -/
def ProgMainFeasible (stations selected confs : List ℕ)
    (confLinks : ℕ → List Link) (rates : ℕ → Link → ℚ)
    (sigma rho : ℕ → ℚ) (lfrac : ℚ)
    (w : ℕ → ℚ) (thr : ℕ → ℚ) (mu y : ℚ) : Prop :=
  (∀ c ∈ confs, 0 ≤ w c) ∧
  (∀ c ∈ confs, w c ≤ 1) ∧
  (∀ s ∈ stations, 0 ≤ thr s) ∧
  0 ≤ mu ∧
  0 ≤ y ∧
  (confs.map w).sum = 1 - lfrac ∧
  (∀ s ∈ stations, thr s = nodeThroughput confs confLinks rates w s) ∧
  (∀ s ∈ stations, sigma s - y ≤ thr s) ∧
  (∀ s ∈ stations, rho s - y ≤ thr s) ∧
  (∀ s ∈ selected, mu ≤ thr s)

/-- C2: every result of the main LP has each configuration share in
`[0, 1]` with the shares summing to 1, and in the progressive variant
summing to `1 − ℓ` where `ℓ` is the committed fraction. -/
theorem C2_shares_bounds_and_sum
    (stations selected confs : List ℕ) (confLinks : ℕ → List Link)
    (rates : ℕ → Link → ℚ) (minThr : ℚ) (optSum : Bool)
    (sigma rho : ℕ → ℚ) (lfrac : ℚ)
    (w w' : ℕ → ℚ) (thr thr' : ℕ → ℚ) (mu mu' y : ℚ) :
    (MainFeasible stations confs confLinks rates minThr optSum w thr mu →
      (∀ c ∈ confs, 0 ≤ w c ∧ w c ≤ 1) ∧ (confs.map w).sum = 1) ∧
    (ProgMainFeasible stations selected confs confLinks rates sigma rho lfrac
        w' thr' mu' y →
      (∀ c ∈ confs, 0 ≤ w' c ∧ w' c ≤ 1) ∧ (confs.map w').sum = 1 - lfrac) := by
  constructor
  · rintro ⟨hlb, hub, -, -, hsum, -, -, -⟩
    exact ⟨fun c hc => ⟨hlb c hc, hub c hc⟩, hsum⟩
  · rintro ⟨hlb, hub, -, -, -, hsum, -, -, -, -⟩
    exact ⟨fun c hc => ⟨hlb c hc, hub c hc⟩, hsum⟩

/-- Witness for C2: the theorem applied to concrete feasible assignments
of both LPs (one configuration, one station; the progressive instance has
ℓ = 1/2 and share 1/2). -/
theorem C2_shares_witness :
    (([1].map (fun _ => (1 : ℚ))).sum = 1) ∧
      (([1].map (fun _ => (1 / 2 : ℚ))).sum = 1 - 1 / 2) := by
  have h := C2_shares_bounds_and_sum [1] [1] [1] (fun _ => [(0, 1)])
    (fun _ _ => 8) 0 false (fun _ => 0) (fun _ => 0) (1 / 2)
    (fun _ => 1) (fun _ => 1 / 2) (fun _ => 8) (fun _ => 4) 0 0 0
  refine ⟨(h.1 ?_).2, (h.2 ?_).2⟩
  · refine ⟨by norm_num, by norm_num, by norm_num, le_refl 0, by norm_num, ?_, ?_, ?_⟩
    · intro s hs
      simp only [List.mem_singleton] at hs
      subst hs
      norm_num [nodeThroughput]
    · intro s hs
      norm_num
    · intro h
      exact absurd h (by norm_num)
  · refine ⟨by norm_num, by norm_num, by norm_num, le_refl 0, le_refl 0, by norm_num, ?_, ?_, ?_, ?_⟩
    · intro s hs
      simp only [List.mem_singleton] at hs
      subst hs
      norm_num [nodeThroughput]
    · intro s hs
      norm_num
    · intro s hs
      norm_num
    · intro s hs
      norm_num

/-- The record returned by `Main.__call__` (main.py lines 96-101): the
duals `alpha`, `beta`, `gamma` and the share dictionary, whose key set is
the `confs` list passed in. -/
structure MainRes where
  alpha : ℚ
  beta : ℕ → ℚ
  gamma : ℕ → ℚ
  sharesDom : List ℕ
  shares : ℕ → ℚ

/-- The external LP engine solving the main problem, abstracted as the
values it reports: duals and the `conf_weight` variable values.  The
engine is an out-of-scope collaborator; everything built around it is
embedded from the source. -/
structure MainOracle where
  alpha : Config → ℚ
  beta : Config → ℕ → ℚ
  gamma : Config → ℕ → ℚ
  w : Config → ℕ → ℚ

/-- One main solve (main.py lines 60-103): the share dictionary is keyed
by exactly the `confs` of the configuration pool passed in. -/
def mainCall (o : MainOracle) (cfg : Config) : MainRes :=
  { alpha := o.alpha cfg
    beta := o.beta cfg
    gamma := o.gamma cfg
    sharesDom := cfg.confs
    shares := o.w cfg }

/-- The external MILP engine solving the pricing problem, abstracted as
the variable values (`link_on`, `link_tx_power`, `link_data_rate`) and the
objective value it reports. -/
structure PricingOracle where
  linkOn : Config → MainRes → Link → ℚ
  tx : Config → MainRes → Link → ℚ
  rate : Config → MainRes → Link → ℚ
  objective : Config → MainRes → ℚ

/-- One pricing solve followed by the column extraction of
`Pricing.__call__` (pricing.py lines 169-192): the new compatible set gets
id `conf_num`, `confs` becomes `range(1, conf_num + 1)`, the new column's
links are those with `link_on = 1`, its powers/rates are the reported
variable values on those links, its total rate their sum, and `conf_num`
is incremented. -/
def pricingCall (o : PricingOracle) (links : List Link) (mr : MainRes)
    (cfg : Config) : Config × ℚ :=
  let onv := o.linkOn cfg mr
  let txv := o.tx cfg mr
  let rv := o.rate cfg mr
  let n := cfg.confNum
  let newLinks := links.filter (fun l => onv l = 1)
  ({ confNum := n + 1
     confs := List.range' 1 n
     confLinks := fun c => if c = n then newLinks else cfg.confLinks c
     confLinkRates := fun c =>
       if c = n then (fun l => if l ∈ newLinks then rv l else 0)
       else cfg.confLinkRates c
     confTotalRates := fun c =>
       if c = n then (newLinks.map rv).sum else cfg.confTotalRates c
     confLinkTxPower := fun c =>
       if c = n then (fun l => if l ∈ newLinks then txv l else 0)
       else cfg.confLinkTxPower c },
   o.objective cfg mr)

/-- The main/pricing alternation common to `Solver.__call__` (solver.py
lines 281-307) and the progressive `Solver._solve_max_min_problem`
(progressive/solver.py lines 115-147), parameterised by the stop test
applied to the just-computed pricing objective.  Returns the final pool,
the last bound main result (`none` when the body never ran), and the
trace of pricing objectives in order. -/
def cgLoop (mo : MainOracle) (po : PricingOracle) (links : List Link)
    (stop : ℚ → Bool) : ℕ → Config → Config × Option MainRes × List ℚ
  | 0, cfg => (cfg, none, [])
  | fuel + 1, cfg =>
      let mr := mainCall mo cfg
      let pr := pricingCall po links mr cfg
      if stop pr.2 then (pr.1, some mr, [pr.2])
      else
        ((cgLoop mo po links stop fuel pr.1).1,
         some ((cgLoop mo po links stop fuel pr.1).2.1.getD mr),
         pr.2 :: (cgLoop mo po links stop fuel pr.1).2.2)

/-- The loop of `Solver.__call__` (solver.py line 306): break when
`pricing_objective <= epsilon`. -/
def colGenLoop (mo : MainOracle) (po : PricingOracle) (links : List Link)
    (eps : ℚ) : ℕ → Config → Config × Option MainRes × List ℚ :=
  cgLoop mo po links (fun o => decide (o ≤ eps))

/-- The loop of the progressive `Solver._solve_max_min_problem`
(progressive/solver.py line 144): break when
`abs(pricing_objective) <= epsilon`. -/
def progMaxMinLoop (mo : MainOracle) (po : PricingOracle) (links : List Link)
    (eps : ℚ) : ℕ → Config → Config × Option MainRes × List ℚ :=
  cgLoop mo po links (fun o => decide (|o| ≤ eps))

lemma cgLoop_length_le (mo : MainOracle) (po : PricingOracle)
    (links : List Link) (stop : ℚ → Bool) :
    ∀ (fuel : ℕ) (cfg : Config),
      (cgLoop mo po links stop fuel cfg).2.2.length ≤ fuel := by
  intro fuel
  induction fuel with
  | zero => intro cfg; simp [cgLoop]
  | succ n ih =>
      intro cfg
      rw [cgLoop]
      split
      · simp
      · simpa using ih _

lemma cgLoop_not_stopped (mo : MainOracle) (po : PricingOracle)
    (links : List Link) (stop : ℚ → Bool) :
    ∀ (fuel : ℕ) (cfg : Config) (i : ℕ),
      i + 1 < (cgLoop mo po links stop fuel cfg).2.2.length →
        stop ((cgLoop mo po links stop fuel cfg).2.2.getD i 0) = false := by
  intro fuel
  induction fuel with
  | zero => intro cfg i h; simp [cgLoop] at h
  | succ n ih =>
      intro cfg i h
      rw [cgLoop] at h ⊢
      by_cases hs : stop (pricingCall po links (mainCall mo cfg) cfg).2 = true
      · rw [if_pos hs] at h
        simp at h
      · rw [if_neg hs] at h ⊢
        cases i with
        | zero => simpa using Bool.eq_false_iff.mpr hs
        | succ j =>
            simp only [List.length_cons] at h
            simpa using ih _ j (by omega)

lemma getLast?_cons_of_ne (a : ℚ) (l : List ℚ) (h : l ≠ []) :
    (a :: l).getLast? = l.getLast? := by
  cases l with
  | nil => exact absurd rfl h
  | cons b t => simp [List.getLast?]

lemma cgLoop_stopped (mo : MainOracle) (po : PricingOracle)
    (links : List Link) (stop : ℚ → Bool) :
    ∀ (fuel : ℕ) (cfg : Config),
      (cgLoop mo po links stop fuel cfg).2.2.length < fuel →
        ∃ v, (cgLoop mo po links stop fuel cfg).2.2.getLast? = some v ∧
          stop v = true := by
  intro fuel
  induction fuel with
  | zero => intro cfg h; simp [cgLoop] at h
  | succ n ih =>
      intro cfg h
      rw [cgLoop] at h ⊢
      by_cases hs : stop (pricingCall po links (mainCall mo cfg) cfg).2 = true
      · rw [if_pos hs]
        exact ⟨_, rfl, hs⟩
      · rw [if_neg hs] at h ⊢
        simp only [List.length_cons] at h
        obtain ⟨v, hv, hsv⟩ :=
          ih (pricingCall po links (mainCall mo cfg) cfg).1 (by omega)
        refine ⟨v, ?_, hsv⟩
        have hne : (cgLoop mo po links stop n
            (pricingCall po links (mainCall mo cfg) cfg).1).2.2 ≠ [] := by
          intro hnil
          rw [hnil] at hv
          simp at hv
        simpa [getLast?_cons_of_ne _ _ hne] using hv

lemma cgLoop_main_bound (mo : MainOracle) (po : PricingOracle)
    (links : List Link) (stop : ℚ → Bool) :
    ∀ (fuel : ℕ) (cfg : Config), 1 ≤ fuel →
      (cgLoop mo po links stop fuel cfg).2.1.isSome = true := by
  intro fuel
  cases fuel with
  | zero => intro cfg h; omega
  | succ n =>
      intro cfg _
      rw [cgLoop]
      split <;> simp

/-- A main-solve oracle returning share 7/13 on every configuration and
zero duals. -/
def oracleA : MainOracle :=
  ⟨fun _ => 0, fun _ _ => 0, fun _ _ => 0, fun _ _ => 7 / 13⟩

/-- A pricing-solve oracle reporting objective −1 with no active links. -/
def oracleNegObj : PricingOracle :=
  ⟨fun _ _ _ => 0, fun _ _ _ => 0, fun _ _ _ => 0, fun _ _ => -1⟩

/-- A pricing-solve oracle reporting objective 0 with no active links. -/
def oracleZeroObj : PricingOracle :=
  ⟨fun _ _ _ => 0, fun _ _ _ => 0, fun _ _ _ => 0, fun _ _ => 0⟩

/-- A one-entry configuration pool (as after seeding with one station). -/
def cfg1 : Config :=
  ⟨2, [1], fun _ => [(0, 0)], fun _ _ => 8, fun _ => 8, fun _ _ => 2⟩

/-- C1 counterexample: with ε = 1/2 and a pricing objective of −1 (which
is ≤ ε), the claim says every pass stops after its first iteration.  The
`Solver.__call__` loop does (trace `[-1]`), but the progressive
`_solve_max_min_problem` loop tests `|objective| ≤ ε` and therefore runs
both available iterations (trace `[-1, -1]`). -/
theorem C1_stop_rule_counterexample :
    ((-1 : ℚ) ≤ 1 / 2) ∧
      (colGenLoop oracleA oracleNegObj [(0, 0)] (1 / 2) 2 cfg1).2.2 = [-1] ∧
      (progMaxMinLoop oracleA oracleNegObj [(0, 0)] (1 / 2) 2 cfg1).2.2 =
        [-1, -1] := by
  refine ⟨by norm_num, ?_, ?_⟩ <;>
    · norm_num [colGenLoop, progMaxMinLoop, cgLoop, pricingCall, mainCall,
        oracleA, oracleNegObj, cfg1]

/-- C1 amended: every pass performs at most `max_iterations` iterations;
the `Solver.__call__` loop stops early exactly when the just-computed
pricing objective is ≤ ε, while the progressive loop stops early exactly
when its absolute value is ≤ ε; and reaching the iteration bound is not
fatal — with at least one iteration a main result is always available to
build the returned schedule. -/
theorem C1_amended_iterations_and_stop
    (mo : MainOracle) (po : PricingOracle) (links : List Link) (eps : ℚ)
    (fuel : ℕ) (cfg : Config) :
    ((colGenLoop mo po links eps fuel cfg).2.2.length ≤ fuel ∧
      (∀ i, i + 1 < (colGenLoop mo po links eps fuel cfg).2.2.length →
        eps < (colGenLoop mo po links eps fuel cfg).2.2.getD i 0) ∧
      ((colGenLoop mo po links eps fuel cfg).2.2.length < fuel →
        ∃ v, (colGenLoop mo po links eps fuel cfg).2.2.getLast? = some v ∧
          v ≤ eps) ∧
      (1 ≤ fuel → (colGenLoop mo po links eps fuel cfg).2.1.isSome = true)) ∧
    ((progMaxMinLoop mo po links eps fuel cfg).2.2.length ≤ fuel ∧
      (∀ i, i + 1 < (progMaxMinLoop mo po links eps fuel cfg).2.2.length →
        eps < |(progMaxMinLoop mo po links eps fuel cfg).2.2.getD i 0|) ∧
      ((progMaxMinLoop mo po links eps fuel cfg).2.2.length < fuel →
        ∃ v, (progMaxMinLoop mo po links eps fuel cfg).2.2.getLast? = some v ∧
          |v| ≤ eps) ∧
      (1 ≤ fuel → (progMaxMinLoop mo po links eps fuel cfg).2.1.isSome = true)) := by
  constructor
  · refine ⟨cgLoop_length_le mo po links _ fuel cfg, ?_, ?_, ?_⟩
    · intro i hi
      have := cgLoop_not_stopped mo po links _ fuel cfg i hi
      simpa using this
    · intro hlt
      obtain ⟨v, hv, hsv⟩ := cgLoop_stopped mo po links _ fuel cfg hlt
      exact ⟨v, hv, by simpa using hsv⟩
    · exact fun h => cgLoop_main_bound mo po links _ fuel cfg h
  · refine ⟨cgLoop_length_le mo po links _ fuel cfg, ?_, ?_, ?_⟩
    · intro i hi
      have := cgLoop_not_stopped mo po links _ fuel cfg i hi
      simpa using this
    · intro hlt
      obtain ⟨v, hv, hsv⟩ := cgLoop_stopped mo po links _ fuel cfg hlt
      exact ⟨v, hv, by simpa using hsv⟩
    · exact fun h => cgLoop_main_bound mo po links _ fuel cfg h

/-- Witness for C1 (amended): the theorem applied at a concrete instance,
discharging the iteration-budget hypotheses. -/
theorem C1_amended_witness :
    (colGenLoop oracleA oracleNegObj [(0, 0)] (1 / 2) 2 cfg1).2.2.length ≤ 2 ∧
      (progMaxMinLoop oracleA oracleNegObj [(0, 0)] (1 / 2) 2 cfg1).2.1.isSome = true := by
  have h := C1_amended_iterations_and_stop oracleA oracleNegObj [(0, 0)] (1 / 2) 2 cfg1
  exact ⟨h.1.1, h.2.2.2.2 (by norm_num)⟩

/-- Modelled from the spec: the `Pricing.initial_configuration` overload
that `Solver.__call__` invokes with `links=` and `link_path_loss=`
keyword arguments is absent from the sources (pricing.py carries the
station/graph variant of an adjacent commit).  Per the spec it seeds the
pool with one singleton configuration per admitted link (one per STA),
numbered from 1, at max power, with the highest noise-only MCS rate. -/
def initialConfigurationFromLinks (K : ℕ) (sinr R : ℕ → ℚ) (maxP noise : ℚ)
    (links : List Link) (lpl : Link → ℚ) : Config :=
  { confNum := links.length + 1
    confs := List.range' 1 links.length
    confLinks := fun c =>
      if 1 ≤ c ∧ c ≤ links.length then [links.getD (c - 1) (0, 0)] else []
    confLinkRates := fun c l =>
      if (1 ≤ c ∧ c ≤ links.length) ∧ l = links.getD (c - 1) (0, 0) then
        best_rate K sinr R maxP noise (lpl l)
      else 0
    confTotalRates := fun c =>
      if 1 ≤ c ∧ c ≤ links.length then
        best_rate K sinr R maxP noise (lpl (links.getD (c - 1) (0, 0)))
      else 0
    confLinkTxPower := fun c l =>
      if (1 ≤ c ∧ c ≤ links.length) ∧ l = links.getD (c - 1) (0, 0) then maxP
      else 0 }

/-- The only failure mode of `Solver.__call__` outside the LP engine:
reading `main_result` after the loop body never executed raises Python's
`UnboundLocalError`. -/
inductive SolverError where
  | unboundMain
deriving DecidableEq

/-- The result dictionary built by `Solver.__call__` (solver.py lines
309-315): `links`, `link_rates`, `total_rates` and `tx_power` are keyed by
the final pool's configuration ids (`dom`), `shares` by the ids of the
last main solve (`sharesDom`). -/
structure SolverOut where
  dom : List ℕ
  links : ℕ → List Link
  linkRates : ℕ → Link → ℚ
  totalRates : ℕ → ℚ
  txPower : ℕ → Link → ℚ
  sharesDom : List ℕ
  shares : ℕ → ℚ

/-- The empty result dictionary of the unreachable-topology early return
(solver.py lines 268-272). -/
def emptyOut : SolverOut :=
  ⟨[], fun _ => [], fun _ _ => 0, fun _ => 0, fun _ _ => 0, [], fun _ => 0⟩

/-- Assembling the result dictionary from the final pool and the last
main result (solver.py lines 309-315); `toDbm` is the external
`lin_to_dbm` conversion applied to the stored linear powers. -/
def buildOut (toDbm : ℚ → ℚ) (cfg : Config) (mr : MainRes) : SolverOut :=
  { dom := cfg.confs
    links := cfg.confLinks
    linkRates := cfg.confLinkRates
    totalRates := cfg.confTotalRates
    txPower := fun c l =>
      if l ∈ cfg.confLinks c then toDbm (cfg.confLinkTxPower c l) else 0
    sharesDom := mr.sharesDom
    shares := mr.shares }

/-- The reported total rate (solver.py line 316):
`sum(total_rates[c] * shares[c] for c in shares)` — the sum ranges over
the share dictionary's keys only. -/
def totalRateOf (out : SolverOut) : ℚ :=
  (out.sharesDom.map (fun c => out.totalRates c * out.shares c)).sum

/-- Embeds `Solver.__call__` (solver.py lines 238-321) over linear-scale path
loss: generate the problem data, return the empty result when no link is
admitted, otherwise seed the pool, run the column-generation loop, and
build the result from the final pool and the last main result — failing
when no main result was ever bound. -/
def solverCall (mo : MainOracle) (po : PricingOracle) (toDbm : ℚ → ℚ)
    (stations aps : List ℕ) (K : ℕ) (sinr R : ℕ → ℚ) (maxP noise eps : ℚ)
    (fuel : ℕ) (pl : ℕ → ℕ → ℚ) (assoc : Option (List (ℕ × List ℕ)))
    (retObjs : Bool) :
    Except SolverError (SolverOut × ℚ × Option (List ℚ)) :=
  let links := generateLinks maxP (sinr 0) noise pl stations aps assoc
  if links = [] then
    .ok (emptyOut, 0, if retObjs then some [] else none)
  else
    let cfg0 := initialConfigurationFromLinks K sinr R maxP noise links
      (fun l => pl l.1 l.2)
    let res := colGenLoop mo po links eps fuel cfg0
    match res.2.1 with
    | none => .error .unboundMain
    | some mr =>
        .ok (buildOut toDbm res.1 mr, totalRateOf (buildOut toDbm res.1 mr),
          if retObjs then some res.2.2 else none)

lemma findBest_fold (pl : ℕ → ℕ → ℚ) (s : ℕ) :
    ∀ (aps : List ℕ) (acc : Option (ℚ × ℕ)),
      List.foldl (fun acc a =>
        match acc with
        | none => some (pl a s, a)
        | some (bp, ba) =>
            if pl a s < bp then some (pl a s, a) else some (bp, ba)) acc aps = acc ∨
      ∃ a ∈ aps,
        List.foldl (fun acc a =>
          match acc with
          | none => some (pl a s, a)
          | some (bp, ba) =>
              if pl a s < bp then some (pl a s, a) else some (bp, ba)) acc aps =
          some (pl a s, a) := by
  intro aps
  induction aps with
  | nil => intro acc; left; rfl
  | cons x xs ih =>
      intro acc
      rw [List.foldl_cons]
      rcases ih (match acc with
        | none => some (pl x s, x)
        | some (bp, ba) =>
            if pl x s < bp then some (pl x s, x) else some (bp, ba)) with h | ⟨a, ha, h⟩
      · rw [h]
        match acc with
        | none => exact Or.inr ⟨x, List.mem_cons_self x xs, rfl⟩
        | some (bp, ba) =>
            dsimp only
            by_cases hlt : pl x s < bp
            · rw [if_pos hlt]
              exact Or.inr ⟨x, List.mem_cons_self x xs, rfl⟩
            · rw [if_neg hlt]
              exact Or.inl rfl
      · exact Or.inr ⟨a, List.mem_cons_of_mem x ha, h⟩

/-- A defined best AP always comes from the scanned AP list with its own
path loss. -/
lemma findBest_mem (pl : ℕ → ℕ → ℚ) (s : ℕ) (aps : List ℕ) (bp : ℚ) (ba : ℕ)
    (h : findBest pl s aps = some (bp, ba)) : ba ∈ aps ∧ bp = pl ba s := by
  rcases findBest_fold pl s aps none with h0 | ⟨a, ha, h0⟩
  · rw [findBest] at h
    rw [h0] at h
    cases h
  · rw [findBest] at h
    rw [h0] at h
    injection h with h'
    obtain ⟨h1, h2⟩ := Prod.ext_iff.mp h'
    subst h2
    exact ⟨ha, h1.symm⟩

lemma linksAuto_eq_nil (maxP sinr0 noise : ℚ) (pl : ℕ → ℕ → ℚ)
    (stas aps : List ℕ)
    (h : ∀ s ∈ stas, ∀ a ∈ aps, tx_possible maxP sinr0 (pl a s) noise = false) :
    linksAuto maxP sinr0 noise pl stas aps = [] := by
  rw [linksAuto]
  suffices hgen : ∀ acc : List Link,
      stas.foldl (fun acc s =>
        match findBest pl s aps with
        | none => acc
        | some (bp, ba) =>
            if tx_possible maxP sinr0 bp noise then acc ++ [(ba, s)] else acc)
        acc = acc by
    exact hgen []
  induction stas with
  | nil => intro acc; rfl
  | cons x xs ih =>
      intro acc
      rw [List.foldl_cons]
      have hstep : (match findBest pl x aps with
          | none => acc
          | some (bp, ba) =>
              if tx_possible maxP sinr0 bp noise then acc ++ [(ba, x)]
              else acc) = acc := by
        rcases hfb : findBest pl x aps with - | ⟨bp, ba⟩
        · rfl
        · obtain ⟨hmem, hbp⟩ := findBest_mem pl x aps bp ba hfb
          have := h x (List.mem_cons_self x xs) ba hmem
          simp only [hbp, this, Bool.false_eq_true, if_false]
      rw [hstep]
      exact ih (fun s hs => h s (List.mem_cons_of_mem x hs)) acc

lemma linksAssoc_eq_nil (maxP sinr0 noise : ℚ) (pl : ℕ → ℕ → ℚ)
    (assoc : List (ℕ × List ℕ))
    (h : ∀ p ∈ assoc, ∀ s ∈ p.2,
      tx_possible maxP sinr0 (pl p.1 s) noise = false) :
    linksAssoc maxP sinr0 noise pl assoc = [] := by
  rw [linksAssoc]
  suffices hgen : ∀ acc : List Link,
      assoc.foldl (fun acc p =>
        acc ++ (p.2.filter (fun s => tx_possible maxP sinr0 (pl p.1 s) noise)).map
          (fun s => (p.1, s))) acc = acc by
    exact hgen []
  induction assoc with
  | nil => intro acc; rfl
  | cons x xs ih =>
      intro acc
      rw [List.foldl_cons]
      have hfil : x.2.filter (fun s => tx_possible maxP sinr0 (pl x.1 s) noise) = [] :=
        List.filter_eq_nil_iff.mpr (fun s hs => by
          rw [h x (List.mem_cons_self x xs) s hs]
          exact Bool.false_ne_true)
      rw [hfil, List.map_nil, List.append_nil]
      exact ih (fun p hp => h p (List.mem_cons_of_mem x hp)) acc

/-- C3: when no AP-STA pair passes the MCS-0 feasibility filter, the
solver returns the empty configuration dictionary with total rate 0 (and
an empty objectives list when requested), for every main/pricing engine —
i.e. without consulting either solver — and without an error. -/
theorem C3_unreachable_returns_empty
    (mo : MainOracle) (po : PricingOracle) (toDbm : ℚ → ℚ)
    (stations aps : List ℕ) (K : ℕ) (sinr R : ℕ → ℚ) (maxP noise eps : ℚ)
    (fuel : ℕ) (pl : ℕ → ℕ → ℚ) (assoc : Option (List (ℕ × List ℕ)))
    (retObjs : Bool)
    (hauto : assoc = none →
      ∀ s ∈ stations, ∀ a ∈ aps,
        tx_possible maxP (sinr 0) (pl a s) noise = false)
    (hassoc : ∀ m, assoc = some m →
      ∀ p ∈ m, ∀ s ∈ p.2,
        tx_possible maxP (sinr 0) (pl p.1 s) noise = false) :
    solverCall mo po toDbm stations aps K sinr R maxP noise eps fuel pl assoc
        retObjs =
      .ok (emptyOut, 0, if retObjs then some [] else none) := by
  have hlinks : generateLinks maxP (sinr 0) noise pl stations aps assoc = [] := by
    cases assoc with
    | none =>
        exact linksAuto_eq_nil maxP (sinr 0) noise pl stations aps (hauto rfl)
    | some m =>
        exact linksAssoc_eq_nil maxP (sinr 0) noise pl m (hassoc m rfl)
  simp only [solverCall, hlinks]
  rfl

/-- Witness for C3: a one-AP/one-STA topology whose sole pair fails the
filter (`max_tx_power = 0 < 1 = min_sinr·PL·N0`). -/
theorem C3_unreachable_witness :
    solverCall oracleA oracleZeroObj id [1] [0] 1 (fun _ => 1) (fun _ => 8)
      0 1 1 1 (fun _ _ => 1) none true = .ok (emptyOut, 0, some []) := by
  have h := C3_unreachable_returns_empty oracleA oracleZeroObj id [1] [0] 1
    (fun _ => 1) (fun _ => 8) 0 1 1 1 (fun _ _ => 1) none true
    (fun _ => by norm_num [tx_possible]) (fun m hm => Option.noConfusion hm)
  simpa using h

/-- C10: with a non-empty admitted link set, `max_iterations = 0` means
the loop body never executes and no main result is ever bound, so the
result construction fails (Python `UnboundLocalError`) instead of
returning the seeded pool with shares; with `max_iterations ≥ 1` the call
returns a result. -/
theorem C10_zero_iterations_unbound
    (mo : MainOracle) (po : PricingOracle) (toDbm : ℚ → ℚ)
    (stations aps : List ℕ) (K : ℕ) (sinr R : ℕ → ℚ) (maxP noise eps : ℚ)
    (pl : ℕ → ℕ → ℚ) (assoc : Option (List (ℕ × List ℕ))) (retObjs : Bool)
    (hlinks : generateLinks maxP (sinr 0) noise pl stations aps assoc ≠ []) :
    solverCall mo po toDbm stations aps K sinr R maxP noise eps 0 pl assoc
        retObjs = .error .unboundMain ∧
      ∀ fuel, 1 ≤ fuel →
        (solverCall mo po toDbm stations aps K sinr R maxP noise eps fuel pl
          assoc retObjs).isOk = true := by
  constructor
  · simp only [solverCall, if_neg hlinks]
    rfl
  · intro fuel hfuel
    have hs := cgLoop_main_bound mo po
      (generateLinks maxP (sinr 0) noise pl stations aps assoc)
      (fun o => decide (o ≤ eps)) fuel
      (initialConfigurationFromLinks K sinr R maxP noise
        (generateLinks maxP (sinr 0) noise pl stations aps assoc)
        (fun l => pl l.1 l.2)) hfuel
    obtain ⟨mr, hmr⟩ := Option.isSome_iff_exists.mp hs
    simp only [solverCall, if_neg hlinks, colGenLoop, hmr]
    rfl

/-- Witness for C10: a reachable one-AP/one-STA topology run with
`max_iterations = 0` produces the unbound-main error. -/
theorem C10_zero_iterations_witness :
    solverCall oracleA oracleZeroObj id [1] [0] 1 (fun _ => 1) (fun _ => 8)
      2 1 1 0 (fun _ _ => 1) none true = .error .unboundMain := by
  have h := C10_zero_iterations_unbound oracleA oracleZeroObj id [1] [0] 1
    (fun _ => 1) (fun _ => 8) 2 1 1 (fun _ _ => 1) none true
    (by norm_num [generateLinks, linksAuto, findBest, tx_possible])
  exact h.1

/-- Through any run of the alternation with at least one iteration, the
final pool's id range exceeds the last main result's share-key range by
exactly the one column added by the final pricing call. -/
lemma cgLoop_dom_relation (mo : MainOracle) (po : PricingOracle)
    (links : List Link) (stop : ℚ → Bool) :
    ∀ (fuel : ℕ) (cfg : Config), 1 ≤ fuel →
      cfg.confs = List.range' 1 (cfg.confNum - 1) → 1 ≤ cfg.confNum →
      ∃ mr n, (cgLoop mo po links stop fuel cfg).2.1 = some mr ∧ 1 ≤ n ∧
        (cgLoop mo po links stop fuel cfg).1.confs = List.range' 1 n ∧
        (cgLoop mo po links stop fuel cfg).1.confNum = n + 1 ∧
        mr.sharesDom = List.range' 1 (n - 1) := by
  intro fuel
  induction fuel with
  | zero => intro cfg h; omega
  | succ f ih =>
      intro cfg _ hconfs hnum
      rw [cgLoop]
      by_cases hs : stop (pricingCall po links (mainCall mo cfg) cfg).2 = true
      · rw [if_pos hs]
        refine ⟨mainCall mo cfg, cfg.confNum, rfl, hnum, rfl, rfl, ?_⟩
        exact hconfs
      · rw [if_neg hs]
        cases f with
        | zero =>
            refine ⟨mainCall mo cfg, cfg.confNum, ?_, hnum, ?_, ?_, hconfs⟩ <;>
              simp [cgLoop, pricingCall]
        | succ f' =>
            have hconfs' : (pricingCall po links (mainCall mo cfg) cfg).1.confs =
                List.range' 1
                  ((pricingCall po links (mainCall mo cfg) cfg).1.confNum - 1) := by
              simp [pricingCall]
            obtain ⟨mr, n, h1, h2, h3, h4, h5⟩ :=
              ih (pricingCall po links (mainCall mo cfg) cfg).1
                (Nat.le_add_left 1 f') hconfs' (by simp [pricingCall])
            exact ⟨mr, n, by rw [h1]; rfl, h2, h3, h4, h5⟩

/-- C9: whenever `Solver.__call__` returns a non-empty result, the
returned `links`/`link_rates`/`total_rates`/`tx_power` dictionaries are
keyed by exactly one configuration id more than `shares`: the final
pricing column (the highest id) is in the pool but has no share, and the
reported total rate sums `rate · share` only over the ids that have a
share. -/
theorem C9_final_column_without_share
    (mo : MainOracle) (po : PricingOracle) (toDbm : ℚ → ℚ)
    (stations aps : List ℕ) (K : ℕ) (sinr R : ℕ → ℚ) (maxP noise eps : ℚ)
    (fuel : ℕ) (pl : ℕ → ℕ → ℚ) (assoc : Option (List (ℕ × List ℕ)))
    (hlinks : generateLinks maxP (sinr 0) noise pl stations aps assoc ≠ [])
    (hfuel : 1 ≤ fuel) :
    ∃ out objs n,
      solverCall mo po toDbm stations aps K sinr R maxP noise eps fuel pl
          assoc true = .ok (out, totalRateOf out, some objs) ∧
        1 ≤ n ∧ out.dom = List.range' 1 n ∧
        out.sharesDom = List.range' 1 (n - 1) ∧
        out.dom.length = out.sharesDom.length + 1 ∧
        n ∈ out.dom ∧ n ∉ out.sharesDom ∧
        totalRateOf out =
          (out.sharesDom.map (fun c => out.totalRates c * out.shares c)).sum := by
  obtain ⟨mr, n, h1, h2, h3, h4, h5⟩ :=
    cgLoop_dom_relation mo po
      (generateLinks maxP (sinr 0) noise pl stations aps assoc)
      (fun o => decide (o ≤ eps)) fuel
      (initialConfigurationFromLinks K sinr R maxP noise
        (generateLinks maxP (sinr 0) noise pl stations aps assoc)
        (fun l => pl l.1 l.2)) hfuel
      (by simp [initialConfigurationFromLinks])
      (by simp [initialConfigurationFromLinks])
  refine ⟨buildOut toDbm
      (cgLoop mo po (generateLinks maxP (sinr 0) noise pl stations aps assoc)
        (fun o => decide (o ≤ eps)) fuel
        (initialConfigurationFromLinks K sinr R maxP noise
          (generateLinks maxP (sinr 0) noise pl stations aps assoc)
          (fun l => pl l.1 l.2))).1 mr,
    (cgLoop mo po (generateLinks maxP (sinr 0) noise pl stations aps assoc)
        (fun o => decide (o ≤ eps)) fuel
        (initialConfigurationFromLinks K sinr R maxP noise
          (generateLinks maxP (sinr 0) noise pl stations aps assoc)
          (fun l => pl l.1 l.2))).2.2,
    n, ?_, h2, ?_, ?_, ?_, ?_, ?_, rfl⟩
  · simp only [solverCall, if_neg hlinks, colGenLoop, h1]
    norm_num
  · simpa [buildOut] using h3
  · simpa [buildOut] using h5
  · simp only [buildOut, h3, h5, List.length_range']
    omega
  · simp only [buildOut, h3]
    rw [List.mem_range'_1]
    omega
  · simp only [buildOut, h5]
    rw [List.mem_range'_1]
    omega

/-- Witness for C9: a reachable one-AP/one-STA topology solved with one
iteration returns ok with the dictionaries as related by the theorem. -/
theorem C9_final_column_witness :
    ∃ out objs,
      solverCall oracleA oracleZeroObj id [1] [0] 1 (fun _ => 1) (fun _ => 8)
        2 1 1 1 (fun _ _ => 1) none true =
          .ok (out, totalRateOf out, some objs) ∧
        out.dom.length = out.sharesDom.length + 1 := by
  obtain ⟨out, objs, n, hok, -, -, -, hlen, -⟩ :=
    C9_final_column_without_share oracleA oracleZeroObj id [1] [0] 1
      (fun _ => 1) (fun _ => 8) 2 1 1 1 (fun _ _ => 1) none
      (by norm_num [generateLinks, linksAuto, findBest, tx_possible])
      (by norm_num)
  exact ⟨out, objs, hok, hlen⟩

/-- The share dictionary of a successful call (0 on the error branch). -/
def sharesOf : Except SolverError (SolverOut × ℚ × Option (List ℚ)) → ℕ → ℚ
  | .ok (out, _, _), c => out.shares c
  | .error _, _ => 0

/-- C8 counterexample: an association map naming node 0 as a station even
though 0 is an AP and the station list is `[1]` — inconsistent input — is
not rejected: the call proceeds into the loop, invokes the main LP engine
(whose share value 7/13 appears in the output), and returns ok. -/
theorem C8_no_validation_counterexample :
    ((0 : ℕ) ∉ ([1] : List ℕ)) ∧
      (solverCall oracleA oracleZeroObj id [1] [0] 1 (fun _ => 1) (fun _ => 8)
        2 1 0 1 (fun _ _ => 1) (some [(0, [0])]) true).isOk = true ∧
      sharesOf (solverCall oracleA oracleZeroObj id [1] [0] 1 (fun _ => 1)
        (fun _ => 8) 2 1 0 1 (fun _ _ => 1) (some [(0, [0])]) true) 1 = 7 / 13 := by
  refine ⟨by decide, ?_, ?_⟩ <;>
    norm_num [solverCall, sharesOf, generateLinks, linksAssoc, tx_possible,
      colGenLoop, cgLoop, pricingCall, mainCall, initialConfigurationFromLinks,
      oracleA, oracleZeroObj, buildOut, totalRateOf, Except.isOk, Except.toBool]

/-- C8 amended: no up-front input validation exists — for every input
(consistent or not), once `max_iterations ≥ 1` the call is processed and
returns ok; the only pre-solver gate is the empty-admitted-link-set
check. -/
theorem C8_amended_no_rejection
    (mo : MainOracle) (po : PricingOracle) (toDbm : ℚ → ℚ)
    (stations aps : List ℕ) (K : ℕ) (sinr R : ℕ → ℚ) (maxP noise eps : ℚ)
    (fuel : ℕ) (pl : ℕ → ℕ → ℚ) (assoc : Option (List (ℕ × List ℕ)))
    (retObjs : Bool) (hfuel : 1 ≤ fuel) :
    (solverCall mo po toDbm stations aps K sinr R maxP noise eps fuel pl assoc
      retObjs).isOk = true := by
  by_cases hlinks : generateLinks maxP (sinr 0) noise pl stations aps assoc = []
  · simp only [solverCall, hlinks]
    rfl
  · have hs := cgLoop_main_bound mo po
      (generateLinks maxP (sinr 0) noise pl stations aps assoc)
      (fun o => decide (o ≤ eps)) fuel
      (initialConfigurationFromLinks K sinr R maxP noise
        (generateLinks maxP (sinr 0) noise pl stations aps assoc)
        (fun l => pl l.1 l.2)) hfuel
    obtain ⟨mr, hmr⟩ := Option.isSome_iff_exists.mp hs
    simp only [solverCall, if_neg hlinks, colGenLoop, hmr]
    rfl

/-- Witness for C8 (amended): a concrete call accepted without any
validation gate. -/
theorem C8_amended_witness :
    (solverCall oracleA oracleZeroObj id [1] [0] 1 (fun _ => 1) (fun _ => 8)
      2 1 0 1 (fun _ _ => 1) none true).isOk = true :=
  C8_amended_no_rejection oracleA oracleZeroObj id [1] [0] 1 (fun _ => 1)
    (fun _ => 8) 2 1 0 1 (fun _ _ => 1) none true (by norm_num)

/-- A two-level monotone min-SINR table for witnesses. -/
def sinrW : ℕ → ℚ := fun m => if m = 0 then 1 else 3

lemma sinrW_mono : ∀ m m', m ≤ m' → sinrW m ≤ sinrW m' := by
  intro m m' h
  unfold sinrW
  by_cases h0 : m = 0
  · by_cases h0' : m' = 0
    · rw [if_pos h0, if_pos h0']
    · rw [if_pos h0, if_neg h0']
      norm_num
  · have h0' : ¬ m' = 0 := by omega
    rw [if_neg h0, if_neg h0']

/-- A two-level data-rate table for witnesses. -/
def ratesW : ℕ → ℚ := fun m => if m = 0 then 8 else 16

/-- Witness for C5: the theorem applied to a one-station topology whose
single link is MCS-0 feasible. -/
theorem C5_initial_witness :
    ∃ cfg, initial_configuration 2 sinrW ratesW 2 1 [5] (fun _ => 1)
        [(0, 5)] = some cfg ∧ cfg.confs = List.range' 1 1 := by
  obtain ⟨cfg, hsome, -, hconfs, -⟩ :=
    C5_initial_configuration 2 sinrW ratesW 2 1 [5] (fun _ => 1) [(0, 5)]
      (by norm_num)
      sinrW_mono
      (by decide)
      (fun s hs l hl => by norm_num)
      (fun s hs l hl => by
        simp only [List.mem_singleton] at hs
        subst hs
        simp only [in_edges, List.mem_filter] at hl
        norm_num [sinrW])
  exact ⟨cfg, hsome, by simpa using hconfs⟩

/-- The Python values that the progressive driver's commit test compares:
node tag strings (`'STA_0'`, `'AP_0'`) and link tuples of tag strings.
Python `==` between a string and a tuple is false; here that is
constructor disjointness of the derived decidable equality. -/
inductive PyObj where
  | str (v : String)
  | pair (a b : PyObj)
deriving DecidableEq

/-- Python's `x in xs` on a list: elementwise equality. -/
def pyMem (x : PyObj) (xs : List PyObj) : Bool :=
  xs.any (fun y => x = y)

/-- The commit condition of the progressive driver (progressive/solver.py
line 208): `weight > self.epsilon and s_prime in configuration['conf_links'][t]`,
where `s_prime` is a station tag string and `conf_links[t]` is a list of
(AP-tag, STA-tag) tuples. -/
def commitTest (eps weight : ℚ) (sPrime : PyObj) (confLinksT : List PyObj) : Bool :=
  decide (eps < weight) && pyMem sPrime confLinksT

/-- The `link_node_b` projection on a tuple-valued link (its STA tag). -/
def pyLinkNodeB : PyObj → Option PyObj
  | PyObj.pair _ b => some b
  | PyObj.str _ => none

/-- C7 (code bug): at a tight station `'STA_0'` with a configuration of
share 1 > ε whose link list is `[('AP_0', 'STA_0')]` — a link terminating
at the station — the commit condition evaluates to false, because the
station *string* is compared against link *tuples* and Python's `==`
between a string and a tuple never holds; so the configuration is not
committed even though its link set contains a link terminating at the
station. -/
theorem C7_commit_test_never_fires :
    commitTest (1 / 100000) 1 (PyObj.str "STA_0")
        [PyObj.pair (PyObj.str "AP_0") (PyObj.str "STA_0")] = false ∧
      (1 / 100000 : ℚ) < 1 ∧
      pyLinkNodeB (PyObj.pair (PyObj.str "AP_0") (PyObj.str "STA_0")) =
        some (PyObj.str "STA_0") := by
  refine ⟨?_, by norm_num, rfl⟩
  norm_num [commitTest, pyMem]
  intro h
  cases h

end MapcOptimal

